import Mathlib

/-!
Verification of `NumberArrayCompressor` (src/NumberArrayCompressor.js),
a codec that serializes multisets of integers in [1, 300] into
compact printable strings via three competing strategies
(run-length, bit-packed frequency table, direct enumeration).

Strings are modelled as `List Char`, JS numbers as `Int` (occasionally
`Nat` where the source value is a count or length), and the one
mutating operation (the in-place sort inside `encodeRunLength`) as
explicit state passing (`encodeRunLengthSt`, `serializeSt` return the
final contents of the caller's array alongside their result).
-/

namespace NAC

/-- The custom alphabet (constructor, line 15): ASCII 33..125 with the two
delimiters exc (',' and ';') removed. -/
def alphabet : List Char :=
  ((List.range (126 - 33)).map (fun i => Char.ofNat (i + 33))).filter
    (fun c => !(c == ',' || c == ';'))

/-- `this.base = this.alphabet.length` (line 16). -/
def base : Nat := alphabet.length

/-- JS `String.prototype.indexOf` on the alphabet: the index of the first
occurrence, or the sentinel -1 when the character is absent. -/
def charIndex (c : Char) : Int :=
  if c ∈ alphabet then (alphabet.indexOf c : Int) else -1

/-- The `while (num > 0)` loop of `encodeNumber` (lines 26-29), with the
remaining iteration count made explicit as structural fuel (the loop runs
at most `num` times since `num` strictly decreases). Prepends the digit
`alphabet[num % base]` for each division step, most significant first. -/
def encLoopF : Nat → Nat → List Char
  | 0, _ => []
  | fuel + 1, num =>
    if num = 0 then []
    else encLoopF fuel (num / base) ++ [alphabet.getD (num % base) ' ']

/-- `encodeNumber` (lines 22-31): custom base-64-style positional encoding;
0 maps to the first alphabet symbol. A negative argument skips the loop
entirely and yields the empty string, as in the source. -/
def encodeNumber (num : Int) : List Char :=
  if num = 0 then [alphabet.getD 0 ' ']
  else encLoopF num.toNat num.toNat

/-- `decodeNumber` (lines 36-42): `result = result * base + indexOf(char)`
left to right; an absent character contributes the indexOf sentinel -1. -/
def decodeNumber (str : List Char) : Int :=
  str.foldl (fun result c => result * (base : Int) + charIndex c) 0

/-- `numbers.sort((a, b) => a - b)`: ascending sort. -/
def sortInts (l : List Int) : List Int :=
  List.insertionSort (· ≤ ·) l

/-- The run-detection loop of `encodeRunLength` (lines 52-64): walks the
sorted list keeping the current run's `start`, the previous element and the
current run `length`; an element exactly one above the previous extends the
run, anything else (including a duplicate) closes it and starts a new one. -/
def runsAux (start prev : Int) (len : Nat) : List Int → List (Int × Nat)
  | [] => [(start, len)]
  | x :: rest =>
    if x = prev + 1 then runsAux start x (len + 1) rest
    else (start, len) :: runsAux x x 1 rest

/-- Runs of a (sorted) list, as computed by `encodeRunLength`. -/
def computeRuns : List Int → List (Int × Nat)
  | [] => []
  | x :: rest => runsAux x x 1 rest

/-- `encodeRunLength` (lines 47-72) together with its side effect: the
source sorts the caller's array in place (`numbers.sort`), so the second
component is the state of the array after the call. -/
def encodeRunLengthSt (numbers : List Int) : List Char × List Int :=
  if numbers = [] then ([], numbers)
  else
    let sorted := sortInts numbers
    ('R' :: (computeRuns sorted).flatMap
        (fun p => encodeNumber p.1 ++ [','] ++ encodeNumber (p.2 : Int) ++ [';']),
      sorted)

/-- The value returned by `encodeRunLength`. -/
def encodeRunLength (numbers : List Int) : List Char :=
  (encodeRunLengthSt numbers).1

/-- The minimal binary digit expansion produced by `Number.prototype.toString(2)`
for a positive number, with explicit structural fuel (the value strictly
decreases at each halving). Most significant bit first; empty for 0. -/
def natBitsF : Nat → Nat → List Bool
  | 0, _ => []
  | fuel + 1, n =>
    if n = 0 then []
    else natBitsF fuel (n / 2) ++ [n % 2 == 1]

/-- `n.toString(2)` as a bit list: "0" for zero, else the minimal expansion. -/
def natBits (n : Nat) : List Bool :=
  if n = 0 then [false] else natBitsF n n

/-- `toString(2).padStart(w, '0')`: left padding with zero bits up to width
`w`; longer expansions are kept unchanged (padStart never truncates). -/
def natBitsPad (w n : Nat) : List Bool :=
  List.replicate (w - (natBits n).length) false ++ natBits n

/-- `parseInt(bits, 2)` for a binary digit string. -/
def bitsToNat (bits : List Bool) : Nat :=
  bits.foldl (fun r b => 2 * r + (if b then 1 else 0)) 0

/-- One (value, count) record of the bit-packed encoding (lines 98-102):
9 bits for `value - 1`, 8 bits for the count saturated at 255. -/
def entryBits (e : Int × Nat) : List Bool :=
  natBitsPad 9 (e.1 - 1).toNat ++ natBitsPad 8 (min e.2 255)

/-- The frequency table of `encodeBitPacking` (lines 82-90): occurrence
counts of the values inside [1, 300] (out-of-range values are dropped),
listed in ascending value order. -/
def freqEntries (numbers : List Int) : List (Int × Nat) :=
  let inRange := numbers.filter (fun n => decide (1 ≤ n) && decide (n ≤ 300))
  ((sortInts inRange).dedup).map (fun v => (v, inRange.count v))

/-- The chunking loop of `encodeBitPacking` (lines 105-110): the bit string
is consumed six bits at a time, `bitString.slice(i, i+6).padEnd(6, '0')`,
each group parsed with `parseInt(chunk, 2)`; a final short group is padded
on the right with zero bits. -/
def chunk6 : List Bool → List Nat
  | [] => []
  | a :: b :: c :: d :: e :: f :: rest => bitsToNat [a, b, c, d, e, f] :: chunk6 rest
  | [a] => [bitsToNat [a, false, false, false, false, false]]
  | [a, b] => [bitsToNat [a, b, false, false, false, false]]
  | [a, b, c] => [bitsToNat [a, b, c, false, false, false]]
  | [a, b, c, d] => [bitsToNat [a, b, c, d, false, false]]
  | [a, b, c, d, e] => [bitsToNat [a, b, c, d, e, false]]

/-- `encodeBitPacking` (lines 78-113). -/
def encodeBitPacking (numbers : List Int) : List Char :=
  if numbers = [] then ['B']
  else
    let entries := freqEntries numbers
    let bitString := entries.flatMap entryBits
    let chunks := (chunk6 bitString).map (fun v => alphabet.getD v ' ')
    'B' :: (encodeNumber (entries.length : Int) ++ [','] ++ chunks)

/-- `encodeDirect` (lines 118-125): sorts a copy of the input and emits one
scalar per element, each followed by ','. -/
def encodeDirect (numbers : List Int) : List Char :=
  'D' :: (sortInts numbers).flatMap (fun num => encodeNumber num ++ [','])

/-- `serialize` (lines 131-143) with the caller's array threaded through:
run-length encoding happens first and sorts the array in place, so the two
remaining encoders observe the sorted contents; `reduce` keeps the
first-seen strict minimum over [direct, runLength, bitPacking]. -/
def serializeSt (numbers : List Int) : List Char × List Int :=
  if numbers = [] then (['E'], numbers)
  else
    let rl := encodeRunLengthSt numbers
    let bitPacking := encodeBitPacking rl.2
    let direct := encodeDirect rl.2
    let candidates := [direct, rl.1, bitPacking]
    (candidates.foldl
      (fun shortest current => if current.length < shortest.length then current else shortest)
      (candidates.headD []),
     rl.2)

/-- The string returned by `serialize`. -/
def serialize (numbers : List Int) : List Char :=
  (serializeSt numbers).1

/-- The error thrown by `deserialize` on an unknown method marker
(`throw new Error('Invalid encoding method')`, line 162). -/
inductive CodecError where
  | invalidEncoding
deriving DecidableEq

/-- `decodeRunLength` (lines 169-185): split the payload on ';', drop empty
fragments, split each fragment on ',', and when at least two fields are
present expand (start, length) into `length` consecutive integers. -/
def splitChar (sep : Char) : List Char → List (List Char)
  | [] => [[]]
  | c :: rest =>
    if c = sep then [] :: splitChar sep rest
    else
      match splitChar sep rest with
      | [] => [[c]]
      | g :: gs => (c :: g) :: gs

/-- JS `indexOf(sep)` combined with the two `slice`s of `decodeBitPacking`
(lines 193-197): the text before the first separator and the text after it,
or `none` when the separator does not occur. -/
def splitFirst (sep : Char) : List Char → Option (List Char × List Char)
  | [] => none
  | c :: rest =>
    if c = sep then some ([], rest)
    else (splitFirst sep rest).map (fun p => (c :: p.1, p.2))

def decodeRunLength (data : List Char) : List Int :=
  ((splitChar ';' data).filter (fun p => p.length > 0)).flatMap (fun part =>
    let runData := splitChar ',' part
    if runData.length ≥ 2 then
      let start := decodeNumber (runData.getD 0 [])
      let len := decodeNumber (runData.getD 1 [])
      (List.range len.toNat).map (fun (j : Nat) => start + (j : Int))
    else [])

/-- `decodeBitPacking` (lines 190-239): recover the entry count before the
first ',', turn each known character back into its 6-bit group (unknown
characters are skipped), then read `entryCount` 17-bit records, keeping
those fully inside the bit string whose value lies in [1, 300] and whose
count is positive; the result is sorted ascending. -/
def decodeBitPacking (data : List Char) : List Int :=
  if data = [] then []
  else
    match splitFirst ',' data with
    | none => []
    | some (countStr, packedData) =>
      let entryCount := decodeNumber countStr
      if entryCount = 0 then []
      else
        let bitString := packedData.flatMap
          (fun c => if c ∈ alphabet then natBitsPad 6 (alphabet.indexOf c) else [])
        let numbers := (List.range entryCount.toNat).flatMap (fun i =>
          let start := i * 17
          if start + 17 ≤ bitString.length then
            let num : Int := (bitsToNat ((bitString.drop start).take 9) : Int) + 1
            let count := bitsToNat ((bitString.drop (start + 9)).take 8)
            if 1 ≤ num ∧ num ≤ 300 ∧ 0 < count then List.replicate count num else []
          else [])
        sortInts numbers

/-- `decodeDirect` (lines 244-256): split on ',', decode every non-empty
field, and keep only values inside [1, 300]. -/
def decodeDirect (data : List Char) : List Int :=
  (((splitChar ',' data).filter (fun p => p.length > 0)).map
    (fun part => decodeNumber part)).filter (fun num => decide (1 ≤ num) && decide (num ≤ 300))

/-- `deserialize` (lines 148-164). `none` models a null/undefined argument
(`!encoded` also catches the empty string). -/
def deserialize (encoded : Option (List Char)) : Except CodecError (List Int) :=
  match encoded with
  | none => .ok []
  | some s =>
    if s = [] ∨ s = ['E'] then .ok []
    else
      match s with
      | [] => .ok []
      | m :: data =>
        if m = 'R' then .ok (decodeRunLength data)
        else if m = 'B' then .ok (decodeBitPacking data)
        else if m = 'D' then .ok (decodeDirect data)
        else .error CodecError.invalidEncoding

end NAC
namespace NAC

theorem alphabet_length : alphabet.length = 91 := by decide

theorem base_eq : base = 91 := by decide

theorem comma_not_mem_alphabet : ',' ∉ alphabet := by decide

theorem semi_not_mem_alphabet : ';' ∉ alphabet := by decide

theorem alphabet_getD_mem : ∀ k, k < 91 → alphabet.getD k ' ' ∈ alphabet := by decide

theorem alphabet_indexOf_getD : ∀ k, k < 91 → alphabet.indexOf (alphabet.getD k ' ') = k := by
  decide

theorem charIndex_getD (k : Nat) (hk : k < 91) :
    charIndex (alphabet.getD k ' ') = (k : Int) := by
  unfold charIndex
  rw [if_pos (alphabet_getD_mem k hk), alphabet_indexOf_getD k hk]

theorem decodeNumber_nil : decodeNumber [] = 0 := rfl

theorem decodeNumber_append_singleton (a : List Char) (c : Char) :
    decodeNumber (a ++ [c]) = decodeNumber a * 91 + charIndex c := by
  unfold decodeNumber
  rw [List.foldl_append]
  simp [base_eq]

end NAC
namespace NAC

theorem one_lt_base : 1 < base := by rw [base_eq]; omega

theorem div_base_le {n fuel : Nat} (hn : n ≠ 0) (h : n ≤ fuel + 1) : n / base ≤ fuel := by
  have := Nat.div_lt_self (Nat.pos_of_ne_zero hn) one_lt_base
  omega

theorem mod_base_lt (n : Nat) : n % base < 91 := by
  have h1 : n % base < base := Nat.mod_lt n (by have := one_lt_base; omega)
  rw [base_eq] at h1
  exact h1

theorem encLoopF_mem {fuel n : Nat} (h : n ≤ fuel) :
    ∀ c ∈ encLoopF fuel n, c ∈ alphabet := by
  induction fuel generalizing n with
  | zero => intro c hc; simp [encLoopF] at hc
  | succ fuel ih =>
    intro c hc
    by_cases hn : n = 0
    · simp [encLoopF, hn] at hc
    · rw [encLoopF, if_neg hn] at hc
      rcases List.mem_append.1 hc with h1 | h1
      · exact ih (div_base_le hn h) c h1
      · have : c = alphabet.getD (n % base) ' ' := by simpa using h1
        subst this
        exact alphabet_getD_mem _ (mod_base_lt n)

theorem decode_encLoopF {fuel n : Nat} (h : n ≤ fuel) :
    decodeNumber (encLoopF fuel n) = (n : Int) := by
  induction fuel generalizing n with
  | zero =>
    have : n = 0 := by omega
    simp [this, encLoopF, decodeNumber_nil]
  | succ fuel ih =>
    by_cases hn : n = 0
    · simp [hn, encLoopF, decodeNumber_nil]
    · rw [encLoopF, if_neg hn, decodeNumber_append_singleton,
        ih (div_base_le hn h), charIndex_getD _ (mod_base_lt n)]
      rw [base_eq]
      push_cast
      omega

theorem encodeNumber_mem {i : Int} : ∀ c ∈ encodeNumber i, c ∈ alphabet := by
  intro c hc
  unfold encodeNumber at hc
  split at hc
  · have : c = alphabet.getD 0 ' ' := by simpa using hc
    subst this; exact alphabet_getD_mem 0 (by omega)
  · exact encLoopF_mem (Nat.le_refl _) c hc

theorem decodeNumber_encodeNumber {i : Int} (h : 0 ≤ i) :
    decodeNumber (encodeNumber i) = i := by
  unfold encodeNumber
  split
  · rename_i h0
    subst h0
    show decodeNumber ([] ++ [alphabet.getD 0 ' ']) = 0
    rw [decodeNumber_append_singleton, decodeNumber_nil, charIndex_getD 0 (by omega)]
    simp
  · rw [decode_encLoopF (Nat.le_refl _)]
    omega

theorem encodeNumber_ne_nil {i : Int} (h : 0 ≤ i) : encodeNumber i ≠ [] := by
  unfold encodeNumber
  split
  · simp
  · rename_i h0
    have hpos : 0 < i.toNat := by omega
    obtain ⟨m, hm⟩ : ∃ m, i.toNat = m + 1 := ⟨i.toNat - 1, by omega⟩
    rw [hm, encLoopF, if_neg (by omega)]
    simp

theorem comma_not_mem_encodeNumber {i : Int} : ',' ∉ encodeNumber i := by
  intro h
  exact comma_not_mem_alphabet (encodeNumber_mem _ h)

theorem semi_not_mem_encodeNumber {i : Int} : ';' ∉ encodeNumber i := by
  intro h
  exact semi_not_mem_alphabet (encodeNumber_mem _ h)

end NAC
namespace NAC

theorem splitChar_ne_nil (sep : Char) (l : List Char) : splitChar sep l ≠ [] := by
  cases l with
  | nil => simp [splitChar]
  | cons c rest =>
    rw [splitChar]
    split
    · simp
    · split <;> simp

theorem splitChar_not_mem {sep : Char} {l : List Char} (h : sep ∉ l) :
    splitChar sep l = [l] := by
  induction l with
  | nil => rfl
  | cons c rest ih =>
    have hc : c ≠ sep := fun he => h (by simp [he])
    have hr : sep ∉ rest := fun hm => h (by simp [hm])
    rw [splitChar, if_neg hc, ih hr]

theorem splitChar_append_sep {sep : Char} {a b : List Char} (h : sep ∉ a) :
    splitChar sep (a ++ sep :: b) = a :: splitChar sep b := by
  induction a with
  | nil => simp [splitChar]
  | cons c rest ih =>
    have hc : c ≠ sep := fun he => h (by simp [he])
    have hr : sep ∉ rest := fun hm => h (by simp [hm])
    rw [List.cons_append, splitChar, if_neg hc, ih hr]

theorem splitChar_flatMap {sep : Char} {xs : List α} {g : α → List Char}
    (h : ∀ x ∈ xs, sep ∉ g x) :
    splitChar sep (xs.flatMap (fun x => g x ++ [sep])) = xs.map g ++ [[]] := by
  induction xs with
  | nil => rfl
  | cons x rest ih =>
    rw [List.flatMap_cons, List.append_assoc, List.singleton_append,
      splitChar_append_sep (h x (by simp)), ih (fun y hy => h y (by simp [hy]))]
    rfl

theorem splitFirst_append {sep : Char} {a b : List Char} (h : sep ∉ a) :
    splitFirst sep (a ++ sep :: b) = some (a, b) := by
  induction a with
  | nil => simp [splitFirst]
  | cons c rest ih =>
    have hc : c ≠ sep := fun he => h (by simp [he])
    have hr : sep ∉ rest := fun hm => h (by simp [hm])
    rw [List.cons_append, splitFirst, if_neg hc, ih hr]
    rfl

end NAC
namespace NAC

theorem runsAux_flatMap (rest : List Int) :
    ∀ (start prev : Int) (len : Nat), prev = start + (len : Int) - 1 →
    (runsAux start prev len rest).flatMap
        (fun p => (List.range p.2).map (fun (j : Nat) => p.1 + (j : Int)))
      = (List.range len).map (fun (j : Nat) => start + (j : Int)) ++ rest := by
  induction rest with
  | nil =>
    intro start prev len hp
    simp [runsAux]
  | cons x t ih =>
    intro start prev len hp
    rw [runsAux]
    split
    · rename_i hx
      rw [ih start x (len + 1) (by push_cast; omega)]
      rw [List.range_succ, List.map_append]
      have hxe : start + (len : Int) = x := by omega
      simp [hxe]
    · rename_i hx
      rw [List.flatMap_cons, ih x x 1 (by push_cast; omega)]
      simp [List.range_succ]

theorem computeRuns_flatMap {l : List Int} (h : l ≠ []) :
    (computeRuns l).flatMap
        (fun p => (List.range p.2).map (fun (j : Nat) => p.1 + (j : Int))) = l := by
  cases l with
  | nil => exact absurd rfl h
  | cons x t =>
    rw [computeRuns, runsAux_flatMap t x x 1 (by push_cast; omega)]
    simp [List.range_succ]

theorem runsAux_fst_mem (rest : List Int) :
    ∀ (start prev : Int) (len : Nat) (p : Int × Nat),
    p ∈ runsAux start prev len rest → p.1 = start ∨ p.1 ∈ rest := by
  induction rest with
  | nil =>
    intro start prev len p hp
    left
    rw [runsAux] at hp
    simp at hp
    rw [hp]
  | cons x t ih =>
    intro start prev len p hp
    rw [runsAux] at hp
    split at hp
    · rcases ih start x (len + 1) p hp with h1 | h1
      · exact Or.inl h1
      · exact Or.inr (by simp [h1])
    · rcases List.mem_cons.1 hp with h1 | h1
      · left; rw [h1]
      · rcases ih x x 1 p h1 with h2 | h2
        · right; simp [h2]
        · right; simp [h2]

theorem computeRuns_fst_mem {l : List Int} {p : Int × Nat}
    (hp : p ∈ computeRuns l) : p.1 ∈ l := by
  cases l with
  | nil => simp [computeRuns] at hp
  | cons x t =>
    rw [computeRuns] at hp
    rcases runsAux_fst_mem t x x 1 p hp with h | h
    · simp [h]
    · simp [h]

theorem mem_sortInts {l : List Int} {v : Int} : v ∈ sortInts l ↔ v ∈ l :=
  (List.perm_insertionSort (· ≤ ·) l).mem_iff

theorem sorted_sortInts (l : List Int) : List.Sorted (· ≤ ·) (sortInts l) :=
  List.sorted_insertionSort (· ≤ ·) l

theorem sortInts_perm (l : List Int) : (sortInts l).Perm l :=
  List.perm_insertionSort (· ≤ ·) l

theorem sortInts_eq_self {l : List Int} (h : List.Sorted (· ≤ ·) l) : sortInts l = l :=
  List.eq_of_perm_of_sorted (sortInts_perm l) (sorted_sortInts l) h

theorem decodeRunLength_encodeRunLength {xs : List Int} (hne : xs ≠ [])
    (hnn : ∀ v ∈ xs, 0 ≤ v) :
    decodeRunLength ((encodeRunLengthSt xs).1.drop 1) = sortInts xs := by
  have hs : ∀ v ∈ sortInts xs, 0 ≤ v := fun v hv => hnn v (mem_sortInts.1 hv)
  have hsne : sortInts xs ≠ [] := by
    intro h0
    have hperm := sortInts_perm xs
    rw [h0] at hperm
    exact hne hperm.symm.eq_nil
  rw [encodeRunLengthSt, if_neg hne]
  simp only [List.drop_succ_cons, List.drop_zero]
  set s := sortInts xs with hsdef
  set runs := computeRuns s with hrdef
  have hstarts : ∀ p ∈ runs, (0 : Int) ≤ p.1 := by
    intro p hp
    exact hs p.1 (computeRuns_fst_mem hp)
  have hshape : (fun p : Int × Nat =>
        encodeNumber p.1 ++ [','] ++ encodeNumber (p.2 : Int) ++ [';'])
      = fun p : Int × Nat =>
        (encodeNumber p.1 ++ ',' :: encodeNumber (p.2 : Int)) ++ [';'] := by
    funext p
    simp
  rw [decodeRunLength, hshape,
    splitChar_flatMap (g := fun p : Int × Nat => encodeNumber p.1 ++ ',' :: encodeNumber (p.2 : Int))
      (by
        intro p hp hsemi
        rcases List.mem_append.1 hsemi with h1 | h1
        · exact semi_not_mem_encodeNumber h1
        · rcases List.mem_cons.1 h1 with h2 | h2
          · exact absurd h2 (by decide)
          · exact semi_not_mem_encodeNumber h2)]
  rw [List.filter_append]
  have hfilter1 :
      (runs.map (fun p : Int × Nat => encodeNumber p.1 ++ ',' :: encodeNumber (p.2 : Int))).filter
        (fun p => p.length > 0)
      = runs.map (fun p : Int × Nat => encodeNumber p.1 ++ ',' :: encodeNumber (p.2 : Int)) := by
    rw [List.filter_eq_self]
    intro a ha
    rcases List.mem_map.1 ha with ⟨p, _, hpe⟩
    subst hpe
    simp
  rw [hfilter1]
  have hfilter2 : List.filter (fun p => p.length > 0) [([] : List Char)] = [] := by decide
  rw [hfilter2, List.append_nil, List.flatMap_map]
  rw [List.flatMap_congr (g := fun p : Int × Nat => (List.range p.2).map (fun (j : Nat) => p.1 + (j : Int)))
    (by
      intro p hp
      rw [splitChar_append_sep comma_not_mem_encodeNumber,
        splitChar_not_mem comma_not_mem_encodeNumber]
      have h1 : decodeNumber (encodeNumber p.1) = p.1 :=
        decodeNumber_encodeNumber (hstarts p hp)
      have h2 : decodeNumber (encodeNumber ((p.2 : Nat) : Int)) = ((p.2 : Nat) : Int) :=
        decodeNumber_encodeNumber (by positivity)
      simp [h1, h2, Int.toNat_natCast])]
  exact computeRuns_flatMap hsne

end NAC
namespace NAC

theorem decodeDirect_encodeDirect {xs : List Int} (hin : ∀ v ∈ xs, 1 ≤ v ∧ v ≤ 300) :
    decodeDirect ((encodeDirect xs).drop 1) = sortInts xs := by
  have hs : ∀ v ∈ sortInts xs, 1 ≤ v ∧ v ≤ 300 := fun v hv => hin v (mem_sortInts.1 hv)
  rw [encodeDirect, decodeDirect]
  simp only [List.drop_succ_cons, List.drop_zero]
  rw [splitChar_flatMap (g := fun num => encodeNumber num)
    (fun x _ => comma_not_mem_encodeNumber)]
  rw [List.filter_append]
  have hfilter1 :
      ((sortInts xs).map (fun num => encodeNumber num)).filter (fun p => p.length > 0)
      = (sortInts xs).map (fun num => encodeNumber num) := by
    rw [List.filter_eq_self]
    intro a ha
    rcases List.mem_map.1 ha with ⟨v, hv, hve⟩
    subst hve
    simp only [gt_iff_lt, List.length_pos, decide_eq_true_eq]
    exact encodeNumber_ne_nil (by have := (hs v hv).1; omega)
  have hfilter2 : List.filter (fun p => p.length > 0) [([] : List Char)] = [] := by decide
  rw [hfilter1, hfilter2, List.append_nil, List.map_map]
  have hmap : List.map (decodeNumber ∘ fun num => encodeNumber num) (sortInts xs)
      = List.map id (sortInts xs) :=
    List.map_congr_left (fun v hv =>
      decodeNumber_encodeNumber (le_trans (by omega) (hs v hv).1))
  rw [hmap, List.map_id, List.filter_eq_self]
  intro v hv
  have := hs v hv
  simp [this.1, this.2]

end NAC
namespace NAC

theorem pad6_round : ∀ a b c d e f : Bool,
    natBitsPad 6 (bitsToNat [a, b, c, d, e, f]) = [a, b, c, d, e, f] := by decide

theorem bits6_lt : ∀ a b c d e f : Bool, bitsToNat [a, b, c, d, e, f] < 64 := by decide

set_option maxRecDepth 40000 in
theorem pad9_parse : ∀ m, m < 512 → bitsToNat (natBitsPad 9 m) = m := by decide

set_option maxRecDepth 40000 in
theorem pad9_len : ∀ m, m < 512 → (natBitsPad 9 m).length = 9 := by decide

set_option maxRecDepth 40000 in
theorem pad8_parse : ∀ m, m < 256 → bitsToNat (natBitsPad 8 m) = m := by decide

set_option maxRecDepth 40000 in
theorem pad8_len : ∀ m, m < 256 → (natBitsPad 8 m).length = 8 := by decide

theorem chunk6_lt : (bits : List Bool) → ∀ k ∈ chunk6 bits, k < 64
  | [] => by simp [chunk6]
  | [a] => by
    simp only [chunk6, List.mem_singleton]
    intro k hk
    subst hk
    exact bits6_lt a false false false false false
  | [a, b] => by
    simp only [chunk6, List.mem_singleton]
    intro k hk
    subst hk
    exact bits6_lt a b false false false false
  | [a, b, c] => by
    simp only [chunk6, List.mem_singleton]
    intro k hk
    subst hk
    exact bits6_lt a b c false false false
  | [a, b, c, d] => by
    simp only [chunk6, List.mem_singleton]
    intro k hk
    subst hk
    exact bits6_lt a b c d false false
  | [a, b, c, d, e] => by
    simp only [chunk6, List.mem_singleton]
    intro k hk
    subst hk
    exact bits6_lt a b c d e false
  | a :: b :: c :: d :: e :: f :: rest => by
    simp only [chunk6, List.mem_cons]
    intro k hk
    rcases hk with hk | hk
    · subst hk; exact bits6_lt a b c d e f
    · exact chunk6_lt rest k hk

theorem chunk6_flatMap : (bits : List Bool) → ∃ rest,
    (chunk6 bits).flatMap (fun k => natBitsPad 6 k) = bits ++ rest
  | [] => ⟨[], rfl⟩
  | [a] =>
    ⟨[false, false, false, false, false], by
      simp [chunk6, pad6_round]⟩
  | [a, b] =>
    ⟨[false, false, false, false], by simp [chunk6, pad6_round]⟩
  | [a, b, c] =>
    ⟨[false, false, false], by simp [chunk6, pad6_round]⟩
  | [a, b, c, d] =>
    ⟨[false, false], by simp [chunk6, pad6_round]⟩
  | [a, b, c, d, e] =>
    ⟨[false], by simp [chunk6, pad6_round]⟩
  | a :: b :: c :: d :: e :: f :: rest => by
    obtain ⟨r, hr⟩ := chunk6_flatMap rest
    exact ⟨r, by simp [chunk6, hr, pad6_round]⟩

end NAC
namespace NAC

theorem flatMap_length_const {α : Type} {f : α → List Bool} :
    ∀ {l : List α}, (∀ x ∈ l, (f x).length = 17) → (l.flatMap f).length = 17 * l.length := by
  intro l
  induction l with
  | nil => intro _; rfl
  | cons p t ih =>
    intro h
    rw [List.flatMap_cons, List.length_append, h p (by simp),
      ih (fun x hx => h x (by simp [hx]))]
    simp [List.length_cons]
    ring

theorem flatMap_drop_entry {α : Type} {f : α → List Bool} :
    ∀ {l : List α}, (∀ x ∈ l, (f x).length = 17) →
    ∀ i, (h : i < l.length) →
    (l.flatMap f).drop (i * 17) = f l[i] ++ (l.drop (i + 1)).flatMap f := by
  intro l
  induction l with
  | nil => intro _ i h; simp at h
  | cons p t ih =>
    intro hf i h
    cases i with
    | zero => simp [List.flatMap_cons]
    | succ j =>
      rw [List.flatMap_cons]
      have h17 : (j + 1) * 17 = 17 + j * 17 := by ring
      rw [h17, ← List.drop_drop, List.drop_left' (hf p (by simp))]
      have hj : j < t.length := by simpa using h
      rw [ih (fun x hx => hf x (by simp [hx])) j hj]
      simp

theorem range_flatMap_eq {α : Type} :
    ∀ (l : List α) (body : Nat → List α),
    (∀ i, (hi : i < l.length) → body i = [l[i]]) →
    (List.range l.length).flatMap body = l := by
  intro l
  induction l with
  | nil => intro body _; rfl
  | cons x t ih =>
    intro body h
    have hlen : (x :: t).length = t.length + 1 := rfl
    rw [hlen, List.range_succ_eq_map, List.flatMap_cons, List.flatMap_map]
    rw [h 0 (by simp)]
    have := ih (fun i => body (i + 1)) (fun i hi => by
      have := h (i + 1) (by simpa using Nat.succ_lt_succ hi)
      simpa using this)
    simp only [List.getElem_cons_zero]
    rw [show (fun a => body (Nat.succ a)) = fun i => body (i + 1) from rfl, this]
    rfl

theorem freqEntries_of_nodup {xs : List Int} (hnd : xs.Nodup)
    (hin : ∀ v ∈ xs, 1 ≤ v ∧ v ≤ 300) :
    freqEntries xs = (sortInts xs).map (fun v => (v, 1)) := by
  unfold freqEntries
  have hfil : xs.filter (fun n => decide (1 ≤ n) && decide (n ≤ 300)) = xs :=
    List.filter_eq_self.mpr (by
      intro a ha
      simp [(hin a ha).1, (hin a ha).2])
  rw [hfil]
  dsimp only
  have hnds : (sortInts xs).Nodup := ((sortInts_perm xs).symm).nodup hnd
  rw [List.Nodup.dedup hnds]
  apply List.map_congr_left
  intro v hv
  rw [List.count_eq_one_of_mem hnd (mem_sortInts.1 hv)]

end NAC
namespace NAC

theorem entryBits_length {v : Int} (h1 : 1 ≤ v) (h3 : v ≤ 300) :
    (entryBits (v, 1)).length = 17 := by
  rw [entryBits, List.length_append, pad9_len _ (by omega), pad8_len _ (by omega)]

theorem decodeBitPacking_encodeBitPacking {xs : List Int} (hnd : xs.Nodup)
    (hin : ∀ v ∈ xs, 1 ≤ v ∧ v ≤ 300) (hne : xs ≠ []) :
    decodeBitPacking ((encodeBitPacking xs).drop 1) = sortInts xs := by
  have hs : ∀ v ∈ sortInts xs, 1 ≤ v ∧ v ≤ 300 := fun v hv => hin v (mem_sortInts.1 hv)
  have hsne : sortInts xs ≠ [] := by
    intro h0
    have hperm := sortInts_perm xs
    rw [h0] at hperm
    exact hne hperm.symm.eq_nil
  rw [encodeBitPacking, if_neg hne, freqEntries_of_nodup hnd hin]
  dsimp only
  set s := sortInts xs with hsdef
  set entries := s.map (fun v => ((v : Int), (1 : Nat))) with hedef
  set bits := entries.flatMap entryBits with hbdef
  set chunks := (chunk6 bits).map (fun v => alphabet.getD v ' ') with hcdef
  have hentlen : ∀ p ∈ entries, (entryBits p).length = 17 := by
    intro p hp
    rcases List.mem_map.1 hp with ⟨v, hv, hpe⟩
    subst hpe
    exact entryBits_length (hs v hv).1 (hs v hv).2
  have hbl : bits.length = 17 * entries.length := flatMap_length_const hentlen
  have hel : entries.length = s.length := List.length_map _ _
  have hslen : 1 ≤ s.length := by
    cases hseq : s with
    | nil => exact absurd hseq hsne
    | cons a t => simp
  obtain ⟨rest, hrest⟩ := chunk6_flatMap bits
  rw [List.drop_succ_cons, List.drop_zero]
  rw [List.append_assoc, List.singleton_append, decodeBitPacking]
  rw [if_neg (List.append_ne_nil_of_right_ne_nil _ (by simp))]
  rw [splitFirst_append comma_not_mem_encodeNumber]
  dsimp only
  rw [decodeNumber_encodeNumber (by positivity)]
  rw [if_neg (by
    intro h0
    rw [hel] at h0
    have : s.length = 0 := by exact_mod_cast h0
    omega)]
  have hbits : chunks.flatMap
      (fun c => if c ∈ alphabet then natBitsPad 6 (alphabet.indexOf c) else [])
      = bits ++ rest := by
    rw [hcdef, List.flatMap_map, ← hrest]
    apply List.flatMap_congr
    intro k hk
    have hk64 : k < 64 := chunk6_lt bits k hk
    rw [if_pos (alphabet_getD_mem k (by omega)), alphabet_indexOf_getD k (by omega)]
  rw [hbits, Int.toNat_natCast, hel]
  have hbody : ∀ i, (hi : i < s.length) →
      (fun i =>
        if i * 17 + 17 ≤ (bits ++ rest).length then
          if 1 ≤ (bitsToNat (((bits ++ rest).drop (i * 17)).take 9) : Int) + 1 ∧
              (bitsToNat (((bits ++ rest).drop (i * 17)).take 9) : Int) + 1 ≤ 300 ∧
              0 < bitsToNat (((bits ++ rest).drop (i * 17 + 9)).take 8) then
            List.replicate (bitsToNat (((bits ++ rest).drop (i * 17 + 9)).take 8))
              ((bitsToNat (((bits ++ rest).drop (i * 17)).take 9) : Int) + 1)
          else []
        else []) i = [s[i]] := by
    intro i hi
    dsimp only
    have hi17 : i * 17 + 17 ≤ bits.length := by
      rw [hbl, hel]
      omega
    have hvin := hs s[i] (List.getElem_mem hi)
    have hd1 : (bits ++ rest).drop (i * 17)
        = natBitsPad 9 (s[i] - 1).toNat ++
          (natBitsPad 8 (min 1 255) ++
            ((entries.drop (i + 1)).flatMap entryBits ++ rest)) := by
      rw [List.drop_append_of_le_length (by omega), flatMap_drop_entry hentlen i (by omega)]
      have hie : i < entries.length := by omega
      have hgm : entries[i] = (s[i], 1) := List.getElem_map _
      rw [hgm, entryBits]
      simp [List.append_assoc]
    have hp9 : (bitsToNat (((bits ++ rest).drop (i * 17)).take 9) : Int) + 1 = s[i] := by
      rw [hd1, List.take_left' (pad9_len _ (by omega)), pad9_parse _ (by omega)]
      omega
    have hd2 : (bits ++ rest).drop (i * 17 + 9)
        = natBitsPad 8 (min 1 255) ++ ((entries.drop (i + 1)).flatMap entryBits ++ rest) := by
      rw [← List.drop_drop, hd1, List.drop_left' (pad9_len _ (by omega))]
    have hp8 : bitsToNat (((bits ++ rest).drop (i * 17 + 9)).take 8) = 1 := by
      rw [hd2, List.take_left' (pad8_len _ (by omega)), pad8_parse _ (by omega)]
      omega
    rw [if_pos (by
      rw [List.length_append]
      omega)]
    rw [if_pos (by
      rw [hp9, hp8]
      exact ⟨hvin.1, hvin.2, by omega⟩)]
    rw [hp9, hp8, List.replicate_one]
  rw [range_flatMap_eq s _ hbody, sortInts_eq_self (sorted_sortInts xs)]

end NAC
namespace NAC

theorem encodeRunLengthSt_snd {xs : List Int} (h : xs ≠ []) :
    (encodeRunLengthSt xs).2 = sortInts xs := by
  rw [encodeRunLengthSt, if_neg h]

theorem serializeSt_snd {xs : List Int} (h : xs ≠ []) :
    (serializeSt xs).2 = sortInts xs := by
  rw [serializeSt, if_neg h]
  dsimp only
  exact encodeRunLengthSt_snd h

theorem serializeSt_fst {xs : List Int} (h : xs ≠ []) :
    (serializeSt xs).1 =
      if ((encodeRunLengthSt xs).1).length < (encodeDirect (sortInts xs)).length then
        (if (encodeBitPacking (sortInts xs)).length < ((encodeRunLengthSt xs).1).length
          then encodeBitPacking (sortInts xs) else (encodeRunLengthSt xs).1)
      else
        (if (encodeBitPacking (sortInts xs)).length < (encodeDirect (sortInts xs)).length
          then encodeBitPacking (sortInts xs) else encodeDirect (sortInts xs)) := by
  rw [serializeSt, if_neg h]
  dsimp only
  rw [encodeRunLengthSt_snd h]
  simp only [List.headD_cons, List.foldl_cons, List.foldl_nil]
  rw [if_neg (lt_irrefl _)]
  by_cases hrd : ((encodeRunLengthSt xs).1).length < (encodeDirect (sortInts xs)).length
  · simp only [if_pos hrd]
  · simp only [if_neg hrd]

theorem encodeDirect_shape (l : List Int) :
    encodeDirect l = 'D' :: (encodeDirect l).drop 1 := by
  rw [encodeDirect]
  rfl

theorem encodeRunLength_shape {xs : List Int} (h : xs ≠ []) :
    (encodeRunLengthSt xs).1 = 'R' :: ((encodeRunLengthSt xs).1.drop 1) := by
  rw [encodeRunLengthSt, if_neg h]
  rfl

theorem encodeBitPacking_shape {l : List Int} (h : l ≠ []) :
    encodeBitPacking l = 'B' :: ((encodeBitPacking l).drop 1) := by
  rw [encodeBitPacking, if_neg h]
  rfl

theorem deserialize_marker_D (data : List Char) :
    deserialize (some ('D' :: data)) = .ok (decodeDirect data) := by
  rw [deserialize]
  rw [if_neg (by
    intro hor
    rcases hor with h1 | h1
    · exact List.cons_ne_nil _ _ h1
    · exact absurd (List.head_eq_of_cons_eq h1) (by decide))]
  rfl

theorem deserialize_marker_R (data : List Char) :
    deserialize (some ('R' :: data)) = .ok (decodeRunLength data) := by
  rw [deserialize]
  rw [if_neg (by
    intro hor
    rcases hor with h1 | h1
    · exact List.cons_ne_nil _ _ h1
    · exact absurd (List.head_eq_of_cons_eq h1) (by decide))]
  rfl

theorem deserialize_marker_B (data : List Char) :
    deserialize (some ('B' :: data)) = .ok (decodeBitPacking data) := by
  rw [deserialize]
  rw [if_neg (by
    intro hor
    rcases hor with h1 | h1
    · exact List.cons_ne_nil _ _ h1
    · exact absurd (List.head_eq_of_cons_eq h1) (by decide))]
  rfl

end NAC
namespace NAC

/-- Claim C1: for every duplicate-free array of integers in [1, 300],
deserialize after serialize succeeds and returns a list with exactly the
same members, whichever strategy the selector picks. -/
theorem claim1_roundtrip (xs : List Int) (hnd : xs.Nodup)
    (hin : ∀ v ∈ xs, 1 ≤ v ∧ v ≤ 300) :
    ∃ ys, deserialize (some (serialize xs)) = .ok ys ∧ (∀ v : Int, v ∈ ys ↔ v ∈ xs) := by
  by_cases hne : xs = []
  · subst hne
    exact ⟨[], rfl, by simp⟩
  · refine ⟨sortInts xs, ?_, fun v => mem_sortInts⟩
    have hsin : ∀ v ∈ sortInts xs, 1 ≤ v ∧ v ≤ 300 := fun v hv => hin v (mem_sortInts.1 hv)
    have hsnd : (sortInts xs).Nodup := ((sortInts_perm xs).symm).nodup hnd
    have hsne : sortInts xs ≠ [] := by
      intro h0
      have hperm := sortInts_perm xs
      rw [h0] at hperm
      exact hne hperm.symm.eq_nil
    have hD : deserialize (some (encodeDirect (sortInts xs))) = .ok (sortInts xs) := by
      rw [encodeDirect_shape, deserialize_marker_D,
        decodeDirect_encodeDirect hsin, sortInts_eq_self (sorted_sortInts xs)]
    have hR : deserialize (some ((encodeRunLengthSt xs).1)) = .ok (sortInts xs) := by
      rw [encodeRunLength_shape hne, deserialize_marker_R,
        decodeRunLength_encodeRunLength hne (fun v hv => by have := (hin v hv).1; omega)]
    have hB : deserialize (some (encodeBitPacking (sortInts xs))) = .ok (sortInts xs) := by
      rw [encodeBitPacking_shape hsne, deserialize_marker_B,
        decodeBitPacking_encodeBitPacking hsnd hsin hsne, sortInts_eq_self (sorted_sortInts xs)]
    rw [serialize, serializeSt_fst hne]
    split_ifs <;> first | exact hB | exact hR | exact hD

/-- Witness for C1 at the concrete input [3, 1, 2]. -/
theorem claim1_witness :
    ∃ ys, deserialize (some (serialize [(3 : Int), 1, 2])) = .ok ys ∧
      (∀ v : Int, v ∈ ys ↔ v ∈ [(3 : Int), 1, 2]) :=
  claim1_roundtrip [3, 1, 2] (by decide) (by decide)

set_option maxRecDepth 40000 in
/-- Claim C2: on 300 copies of the value 7 the selector picks the
bit-packed candidate (the shortest), whose 8-bit count field saturates at
255, so the round trip returns 255 copies of 7 instead of 300 — the code
violates the saturation requirement stated by the spec. -/
theorem claim2_saturation_lost :
    serialize (List.replicate 300 (7 : Int)) = encodeBitPacking (List.replicate 300 (7 : Int)) ∧
    deserialize (some (serialize (List.replicate 300 (7 : Int))))
      = .ok (List.replicate 255 (7 : Int)) :=
  ⟨by rfl, by rfl⟩

/-- Counterexample to C3 as stated: [7, 7] has a repeated value, yet
decoding the run-length encoding of [7, 7] reproduces the multiset
exactly — the duplicate starts a fresh run instead of being dropped. -/
theorem claim3_counterexample :
    ¬ ([(7 : Int), 7].Nodup) ∧
    decodeRunLength ((encodeRunLengthSt [(7 : Int), 7]).1.drop 1) = [7, 7] :=
  ⟨by decide, by rfl⟩

/-- Claim C3 amended: decoding the run-length encoding of any non-empty
array of non-negative values is a permutation of the input (in fact the
sorted input): a duplicate breaks the current run but immediately starts a
new run at the same value, so multiplicities are preserved. -/
theorem claim3_amended (xs : List Int) (hne : xs ≠ []) (hnn : ∀ v ∈ xs, 0 ≤ v) :
    (decodeRunLength ((encodeRunLengthSt xs).1.drop 1)).Perm xs := by
  rw [decodeRunLength_encodeRunLength hne hnn]
  exact sortInts_perm xs

/-- Witness for the amended C3 at the concrete input [5, 5, 9]. -/
theorem claim3_witness :
    (decodeRunLength ((encodeRunLengthSt [(5 : Int), 5, 9]).1.drop 1)).Perm [(5 : Int), 5, 9] :=
  claim3_amended [5, 5, 9] (by decide) (by decide)

/-- Counterexample to C4 as stated: the alphabet has 91 symbols, not 64
(ASCII 33..125 is 93 code points and only the two delimiters are removed),
so the base of the scalar numeral system is not 64 either. -/
theorem claim4_counterexample :
    alphabet.length = 91 ∧ alphabet.length ≠ 64 ∧ base ≠ 64 := by decide

set_option maxRecDepth 10000 in
/-- Claim C4 amended: the alphabet holds exactly 91 distinct symbols and
the scalar base is 91; the 6-bit packing index space (64 values) is
covered by the alphabet but does not coincide with it exactly. -/
theorem claim4_amended :
    alphabet.length = 91 ∧ base = 91 ∧ alphabet.Nodup ∧ 64 ≤ base := by decide

/-- Claim C5: for non-empty input, serialize returns one of the three
candidates, its length is minimal among them, and ties are broken in the
comparison order Direct, RunLength, BitPacking (strict < keeps the
first-seen minimum). -/
theorem claim5_selector (xs : List Int) (h : xs ≠ []) :
    serialize xs ∈
      [encodeDirect (sortInts xs), encodeRunLength xs, encodeBitPacking (sortInts xs)] ∧
    (∀ c ∈ [encodeDirect (sortInts xs), encodeRunLength xs, encodeBitPacking (sortInts xs)],
      (serialize xs).length ≤ c.length) ∧
    serialize xs =
      (if (encodeDirect (sortInts xs)).length ≤ (encodeRunLength xs).length ∧
          (encodeDirect (sortInts xs)).length ≤ (encodeBitPacking (sortInts xs)).length
        then encodeDirect (sortInts xs)
        else if (encodeRunLength xs).length ≤ (encodeBitPacking (sortInts xs)).length
        then encodeRunLength xs
        else encodeBitPacking (sortInts xs)) := by
  simp only [serialize, encodeRunLength]
  rw [serializeSt_fst h]
  refine ⟨?_, ?_, ?_⟩
  · split_ifs <;> simp
  · intro c hc
    simp only [List.mem_cons, List.not_mem_nil, or_false] at hc
    rcases hc with rfl | rfl | rfl <;> split_ifs <;> omega
  · split_ifs <;> first | rfl | (exfalso; omega)

/-- Witness for C5 at the concrete input [1, 2, 3]. -/
theorem claim5_witness :
    (serialize [(1 : Int), 2, 3]).length ≤ (encodeDirect (sortInts [(1 : Int), 2, 3])).length :=
  (claim5_selector [1, 2, 3] (by decide)).2.1 _ (List.mem_cons_self _ _)

/-- Claim C6: the scalar codec round-trips every non-negative integer. -/
theorem claim6_scalar_roundtrip (n : Int) (h : 0 ≤ n) :
    decodeNumber (encodeNumber n) = n :=
  decodeNumber_encodeNumber h

/-- Witness for C6 at the concrete input 12345. -/
theorem claim6_witness : decodeNumber (encodeNumber 12345) = 12345 :=
  claim6_scalar_roundtrip 12345 (by decide)

/-- Claim C7: deserialize fails with the invalid-encoding error on every
non-empty string whose first character is not a recognized marker, and
returns the empty list on null, the empty string and the string E. -/
theorem claim7_invalid_marker :
    (∀ s : List Char, s ≠ [] → s.headD ' ' ∉ (['E', 'R', 'B', 'D'] : List Char) →
      deserialize (some s) = .error CodecError.invalidEncoding) ∧
    deserialize none = .ok [] ∧
    deserialize (some []) = .ok [] ∧
    deserialize (some ['E']) = .ok [] := by
  refine ⟨?_, rfl, rfl, rfl⟩
  intro s hne hm
  cases s with
  | nil => exact absurd rfl hne
  | cons m data =>
    simp only [List.headD_cons, List.mem_cons, List.not_mem_nil, or_false, not_or] at hm
    obtain ⟨hE, hR, hB, hD⟩ := hm
    rw [deserialize]
    rw [if_neg (by
      intro hor
      rcases hor with h1 | h1
      · exact List.cons_ne_nil _ _ h1
      · exact hE (List.head_eq_of_cons_eq h1))]
    rw [if_neg hR, if_neg hB, if_neg hD]

/-- Witness for C7 at the concrete inputs X and null. -/
theorem claim7_witness :
    deserialize (some ['X']) = .error CodecError.invalidEncoding ∧
    deserialize none = .ok [] :=
  ⟨claim7_invalid_marker.1 ['X'] (by decide) (by decide), claim7_invalid_marker.2.1⟩

/-- Claim C8: serialize sorts the caller's array in place — after the call
on a non-empty array the array holds an ascending permutation of its
original contents (the sort happens inside the run-length encoder). -/
theorem claim8_inplace_sort (xs : List Int) (h : xs ≠ []) :
    List.Sorted (· ≤ ·) (serializeSt xs).2 ∧ ((serializeSt xs).2).Perm xs := by
  rw [serializeSt_snd h]
  exact ⟨sorted_sortInts xs, sortInts_perm xs⟩

/-- Witness for C8 at the concrete input [3, 1, 2]. -/
theorem claim8_witness :
    List.Sorted (· ≤ ·) (serializeSt [(3 : Int), 1, 2]).2 ∧
    ((serializeSt [(3 : Int), 1, 2]).2).Perm [(3 : Int), 1, 2] :=
  claim8_inplace_sort [3, 1, 2] (by decide)

/-- Claim C9: decodeNumber never fails on characters outside the alphabet:
the indexOf sentinel -1 becomes a digit value, so a single unknown
character decodes to the negative number -1. -/
theorem claim9_sentinel :
    (∀ c : Char, c ∉ alphabet → decodeNumber [c] = -1) ∧ decodeNumber [','] < 0 := by
  constructor
  · intro c hc
    show decodeNumber ([] ++ [c]) = -1
    rw [decodeNumber_append_singleton, decodeNumber_nil, charIndex, if_neg hc]
    ring
  · decide

/-- Witness for C9 at the concrete character comma. -/
theorem claim9_witness : decodeNumber [','] = -1 :=
  claim9_sentinel.1 ',' (by decide)

/-- Claim C10: decodeDirect and decodeBitPacking only ever return values in
[1, 300], while decodeRunLength applies no range check: an R-tagged input
makes deserialize return the out-of-range value 301. -/
theorem claim10_range_filtering :
    (∀ (data : List Char) (v : Int), v ∈ decodeDirect data → 1 ≤ v ∧ v ≤ 300) ∧
    (∀ (data : List Char) (v : Int), v ∈ decodeBitPacking data → 1 ≤ v ∧ v ≤ 300) ∧
    deserialize (some ('R' :: (encodeNumber 301 ++ [','] ++ encodeNumber 1 ++ [';'])))
      = .ok [301] ∧
    ¬ ((301 : Int) ≤ 300) := by
  refine ⟨?_, ?_, by rfl, by omega⟩
  · intro data v hv
    rw [decodeDirect] at hv
    have hp := (List.mem_filter.1 hv).2
    simp only [Bool.and_eq_true, decide_eq_true_eq] at hp
    exact hp
  · intro data v hv
    simp only [decodeBitPacking] at hv
    split at hv
    · simp at hv
    · split at hv
      · simp at hv
      · split at hv
        · simp at hv
        · rw [mem_sortInts] at hv
          rcases List.mem_flatMap.1 hv with ⟨i, _, hvi⟩
          split at hvi
          · split at hvi
            · rename_i hguard
              rw [List.eq_of_mem_replicate hvi]
              exact ⟨hguard.1, hguard.2.1⟩
            · simp at hvi
          · simp at hvi

/-- Witness for C10 at the concrete payloads for the value 5. -/
theorem claim10_witness :
    ((1 : Int) ≤ 5 ∧ (5 : Int) ≤ 300) ∧ ((1 : Int) ≤ 5 ∧ (5 : Int) ≤ 300) :=
  ⟨claim10_range_filtering.1 (encodeNumber 5 ++ [',']) 5 (by decide),
   claim10_range_filtering.2.1 ((encodeBitPacking [5]).drop 1) 5 (by decide)⟩

end NAC
